import Mathlib

/-!
Shallow embedding of the DBoW2 BRISK descriptor helpers (`src/FBRISK.cpp`),
of the fast vocabulary loader (`src/fastLoadBrisk.cpp`), and of the
descriptor restructuring helpers of the training / loading tools
(`src/trainBRISK.cpp`, `src/loadBRISK.cpp`), together with theorems checking
the natural-language specification against this embedding.

Bytes of a binary descriptor are modelled as `Nat` values (`< 256` where a
claim needs genuine bytes); a descriptor is a `List Nat` of `FBRISK.L = 48`
bytes.  `std::vector` indexing `v[i]` is modelled with `List.getD i 0`
(every in-specification access is in bounds; any out-of-bounds C++ access is
noted where it occurs).
-/

namespace DBoW2

namespace FBRISK

/-- `FBRISK::L`: the BRISK descriptor length in bytes (48, fixed by
`FBRISK.h` and by the comment in `changeStructureBRISK`). -/
def L : Nat := 48

/-- The summand of the summation loop of `FBRISK::meanValue`:
`(desc[i] & (0x01<<b)) ? 1 : 0`. -/
def bitInd (desc : List Nat) (i b : Nat) : Nat :=
  if desc.getD i 0 &&& (1 <<< b) ≠ 0 then 1 else 0

/-- The per-bit counter `sum[i*8+b]` after the summation loop of
`FBRISK::meanValue`: the sum over all input descriptors of
`(desc[i] & (0x01<<b)) ? 1 : 0`. -/
def bitSum (descriptors : List (List Nat)) (i b : Nat) : Nat :=
  (descriptors.map (fun d => bitInd d i b)).sum

/-- `FBRISK::meanValue`: `mean` is resized to `L` zero bytes, the per-bit
counters `sum[i*8+b]` are accumulated over all descriptors, and byte `i` of
the mean gets bit `b` or-ed in (`mean[i] |= (0x01<<b)`) exactly when
`sum[i*8+b] > s` with `s = descriptors.size()/2` (integer division). -/
def meanValue (descriptors : List (List Nat)) : List Nat :=
  let s := descriptors.length / 2
  (List.range L).map (fun i =>
    (List.range 8).foldl
      (fun m b => if bitSum descriptors i b > s then m ||| (1 <<< b) else m) 0)

/-- Spec-side count for the majority vote: the number of input descriptors
whose byte `i` has bit `b` set. -/
def bitSetCount (descriptors : List (List Nat)) (i b : Nat) : Nat :=
  (descriptors.filter (fun d => d.getD i 0 &&& (1 <<< b) != 0)).length

/-- Popcount of one byte (bytes have 8 bits). -/
def bytePopcnt (x : Nat) : Nat :=
  ((List.range 8).map (fun t => if x.testBit t then 1 else 0)).sum

/-- Modelled from the spec: `brisk::Hamming::PopcntofXORed` comes from the
3rd-party brisk submodule, which is not among the repository sources.  Per
the spec, `distance` is "Hamming via byte-wise XOR + popcount"; the third
argument of the call is the number of 128-bit (16-byte) blocks, so the
function returns the popcount of the byte-wise XOR of the two descriptors
over `numberOf128BitWords * 16` bytes. -/
def PopcntofXORed (a b : List Nat) (numberOf128BitWords : Nat) : Nat :=
  ((List.range (numberOf128BitWords * 16)).map
    (fun i => bytePopcnt (a.getD i 0 ^^^ b.getD i 0))).sum

/-- `FBRISK::distance`: `double(brisk::Hamming::PopcntofXORed(&a.front(),
&b.front(), L/16))`.  The value is an exact small integer, modelled in `ℤ`
(the C++ return type `double` represents it exactly). -/
def distance (a b : List Nat) : Int :=
  (PopcntofXORed a b (L / 16) : Int)

/-- Spec-side Hamming distance: the total number of bit positions, over all
`L` bytes of 8 bits each, in which the two descriptors differ. -/
def hammingDistance (a b : List Nat) : Nat :=
  ((List.range L).map (fun i =>
    ((List.range 8).map (fun t =>
      if (a.getD i 0).testBit t ≠ (b.getD i 0).testBit t then 1 else 0)).sum)).sum

/-- Decimal digit character (`'0' + d`), as produced by `operator<<` on a
nonnegative `int`. -/
def digitChar (d : Nat) : Char := Char.ofNat (48 + d)

/-- Decimal rendering of a nonnegative `int` by `stringstream::operator<<`,
most-significant digit first. -/
def natDigits (n : Nat) : List Char :=
  if _h : n < 10 then [digitChar n]
  else natDigits (n / 10) ++ [digitChar (n % 10)]
  termination_by n
  decreasing_by exact Nat.div_lt_self (by omega) (by omega)

/-- `FBRISK::toString`: `ss << int(a[i]) << " "` for `i = 0..L-1`; the
result is the `L` byte values in decimal, each followed by one space. -/
def toString (a : List Nat) : String :=
  String.mk (((List.range L).map (fun i => natDigits (a.getD i 0) ++ [' '])).flatten)

/-- Decimal digit test of `operator>>(int&)`. -/
def isDigitChar (c : Char) : Bool := 48 ≤ c.toNat && c.toNat ≤ 57

/-- Digit-accumulation loop of `stringstream::operator>>(int&)`. -/
def readDigits : List Char → Nat → Nat × List Char
  | [], acc => (acc, [])
  | c :: cs, acc =>
    if isDigitChar c then readDigits cs (acc * 10 + (c.toNat - 48)) else (acc, c :: cs)

/-- `operator>>` first skips whitespace; in this format the only whitespace
character is `' '`. -/
def skipSpaces (cs : List Char) : List Char := cs.dropWhile (fun c => c = ' ')

/-- Model of `ss >> tmp` for `int tmp`: skip whitespace, read an optional
minus sign and then decimal digits (a stream with no digits extracts `0`,
the C++11 failure value).  Returns the extracted `int` and the rest of the
stream. -/
def readIntTok (cs : List Char) : Int × List Char :=
  let rest := skipSpaces cs
  if rest.take 1 = ['-'] then
    (-(Int.ofNat (readDigits (rest.drop 1) 0).1), (readDigits (rest.drop 1) 0).2)
  else
    (Int.ofNat (readDigits rest 0).1, (readDigits rest 0).2)

/-- The `L` successive `ss >> tmp` extractions of `FBRISK::fromString`. -/
def readInts : Nat → List Char → List Int
  | 0, _ => []
  | n + 1, cs => (readIntTok cs).1 :: readInts n (readIntTok cs).2

/-- `FBRISK::fromString`: `a.resize(L)`, then for `i = 0..L-1` read
`ss >> tmp` and store `a[i] = uint8_t(tmp)` (conversion to `uint8_t` is
reduction modulo 256). -/
def fromString (s : String) : List Nat :=
  (readInts L s.data).map (fun t => (t % 256).toNat)

/-- `FBRISK::toMat32F`: on an empty descriptor list the matrix is released
(`none`); otherwise an `N × (L*8)` float matrix is created and row `i` is
filled by the loop `for(j = 0; j < L*8; j += 8, p += 8)` storing
`*(p+b) = desc[j] & (0x01<<b)` for `b = 0..7`.  Writing `j = 8*t` for the
`t`-th outer iteration, column `8*t+b` receives `desc[8*t] & (1<<b)`.  The
entries are exact small integers, modelled as `Nat`.  Note the C++ index
`desc[j] = desc[8*t]` is an out-of-bounds read of the `L`-byte vector as
soon as `8*t >= L` (undefined behaviour, modelled here as reading 0). -/
def toMat32F (descriptors : List (List Nat)) : Option (List (List Nat)) :=
  if descriptors.isEmpty then none
  else some (descriptors.map (fun desc =>
    ((List.range L).map (fun t =>
      (List.range 8).map (fun b => desc.getD (8 * t) 0 &&& (1 <<< b)))).flatten))

end FBRISK

/-- The input exhibiting the byte-indexing bug of `FBRISK::toMat32F`: a
single descriptor whose byte 1 is `1` and whose other 47 bytes are `0`. -/
def bugDesc : List Nat := (List.replicate FBRISK.L 0).set 1 1

/-- `changeStructure` from `trainBRISK.cpp`: `out.resize(rows)`, then
`for(i = 0; i < rows*cols; i += L, ++j) { out[j].resize(L);
copy(data+i, data+i+L, out[j].begin()); }` over the row-major matrix data.
The loop runs `ceil(rows*cols / L)` times; a write `out[j]` with
`j >= rows` (possible only when `cols != L`, undefined behaviour in C++)
is modelled as dropped. -/
def changeStructure (rows cols : Nat) (data : List Nat) (L : Nat) : List (List Nat) :=
  (List.range ((rows * cols + L - 1) / L)).foldl
    (fun out j => out.set j ((List.range L).map (fun t => data.getD (j * L + t) 0)))
    (List.replicate rows [])

/-- `changeStructureBRISK` from `loadBRISK.cpp`: `out.resize(rows)`, and for
each row `i`, `out[i].resize(FBRISK::L)` and
`out[i][j] = plain.ptr<unsigned char>(i)[j]` for `j < FBRISK::L` — row `i`
of the row-major matrix starts at offset `i * cols`. -/
def changeStructureBRISK (rows cols : Nat) (data : List Nat) : List (List Nat) :=
  (List.range rows).map (fun i =>
    (List.range FBRISK.L).map (fun j => data.getD (i * cols + j) 0))

/-- The `NodeData` record of `FastVocabularyLoader`: `(id, parent, weight,
descriptor string)` as read from one persisted node.  `WordValue` is a
`double` that the loader only copies, modelled as `ℤ`. -/
structure NodeData where
  id : Nat
  parent : Nat
  weight : Int
  descriptorStr : String
deriving DecidableEq

/-- A value-initialized `NodeData`, as produced by
`std::vector<NodeData>::resize`. -/
def valueInit : NodeData := ⟨0, 0, 0, ""⟩

/-- One iteration of the node loop of `FastVocabularyLoader::load`:
`if(nid >= node_data.size()) node_data.resize(nid + 1);
node_data[nid] = {nid, pid, weight, descriptor};` where the record `r` is
what the iterator read from the file. -/
def loadNodesStep (node_data : List NodeData) (r : NodeData) : List NodeData :=
  (if node_data.length ≤ r.id then
    node_data ++ List.replicate (r.id + 1 - node_data.length) valueInit
  else node_data).set r.id r

/-- The node pass of `FastVocabularyLoader::load`: one iterator sweep over
the persisted node records, starting from the vector holding only the
implicit root record `{0, 0, 0.0, ""}`. -/
def loadNodes (records : List NodeData) : List NodeData :=
  records.foldl loadNodesStep [⟨0, 0, 0, ""⟩]

/-- The word pass of `FastVocabularyLoader::load`: one iterator sweep over
the persisted `(wordId, nodeId)` records, appending each with `push_back`. -/
def loadWords (records : List (Nat × Nat)) : List (Nat × Nat) :=
  records.foldl (fun word_data p => word_data ++ [p]) []

/-- The observable content of the file handed to
`FastVocabularyLoader::load`: whether `cv::FileStorage` could open it,
whether it has a `vocabulary` node, the scalar header fields, and the
persisted node and word records. -/
structure VocFile where
  opened : Bool
  hasVocabularyNode : Bool
  filename : String
  k : Int
  L : Int
  scoringType : Int
  weightingType : Int
  nodes : List NodeData
  words : List (Nat × Nat)
deriving DecidableEq

namespace FastVocabularyLoader

/-- `FastVocabularyLoader::load`: throws (modelled as `Except.error`) when
the file cannot be opened or when it has no `vocabulary` node, before any
node or word record is touched; otherwise performs the node pass and the
word pass and returns their results. -/
def load (f : VocFile) : Except String (List NodeData × List (Nat × Nat)) :=
  if f.opened = false then
    Except.error ("Could not open file " ++ f.filename)
  else if f.hasVocabularyNode = false then
    Except.error "File does not contain vocabulary node"
  else
    Except.ok (loadNodes f.nodes, loadWords f.words)

end FastVocabularyLoader

/-- Modelled from the spec: the in-memory node of `TemplatedVocabulary`
(spec §3, "Node"; the class itself is not among the repository sources):
unique `nodeId` (the node array is flat, indexed by `NodeId`), `parentId`,
ordered `children` (empty at leaves), representative `descriptor`, `weight`
(a pass-through value the quantization never computes with, modelled as
`ℤ`), and `wordId` (valid only at leaves). -/
structure VocNode where
  nodeId : Nat
  parentId : Nat
  weight : Int
  descriptor : List Nat
  children : List Nat
  wordId : Nat
deriving DecidableEq, Inhabited

/-- Modelled from the spec: a built `TemplatedVocabulary` over `FBRISK`
descriptors: parameters `k`, `depth` (`L` of §4.1), `weighting`, `scoring`,
the flat node array, and the word-id↔node-id map. -/
structure Vocabulary where
  k : Nat
  depth : Nat
  weighting : Nat
  scoring : Nat
  nodes : List VocNode
  words : List (Nat × Nat)
deriving DecidableEq

/-- Modelled from the spec (§6 Persisted state layout): one persisted node
record `{node_id, parent_id, weight, descriptor_string}`. -/
structure PersistedNode where
  nodeId : Nat
  parentId : Nat
  weight : Int
  descriptorStr : String
deriving DecidableEq

/-- Modelled from the spec (§6 Persisted state layout): the persisted
vocabulary record
`{k, L, scoring_id, weighting_id, nodes: [...], words: [...]}`. -/
structure PersistedVoc where
  k : Nat
  depth : Nat
  scoringId : Nat
  weightingId : Nat
  nodes : List PersistedNode
  words : List (Nat × Nat)
deriving DecidableEq

/-- Modelled from the spec (§4.1 Persistence): `save` serializes the
parameters, the node array in array order as
`(id, parent, weight, descriptor string)` — the descriptor through
`FBRISK::toString` — and the word-id↔node-id map. -/
def Vocabulary.save (V : Vocabulary) : PersistedVoc :=
  ⟨V.k, V.depth, V.scoring, V.weighting,
    V.nodes.map (fun n =>
      ⟨n.nodeId, n.parentId, n.weight, FBRISK.toString n.descriptor⟩),
    V.words⟩

/-- Register node `c` as the next child of node `p` while re-creating the
tree structure during `load`. -/
def appendChild (ns : List VocNode) (p c : Nat) : List VocNode :=
  ns.set p { ns.getD p default with children := (ns.getD p default).children ++ [c] }

/-- Record the persisted word map entry `word_id ↦ node_id` on the node
during `load`. -/
def setWordId (ns : List VocNode) (nid wid : Nat) : List VocNode :=
  ns.set nid { ns.getD nid default with wordId := wid }

/-- Modelled from the spec (§4.1 Persistence: "an implementation must
preserve node order and ids exactly"): `load` re-creates the node array in
persisted order, parses each descriptor with `FBRISK::fromString`,
reconstructs each parent's ordered children list from the persisted parent
ids (the root, node 0, is nobody's child), and sets the `wordId`s from the
persisted word map. -/
def Vocabulary.load (P : PersistedVoc) : Vocabulary :=
  let base := P.nodes.map (fun r =>
    VocNode.mk r.nodeId r.parentId r.weight (FBRISK.fromString r.descriptorStr) [] 0)
  let withChildren := P.nodes.foldl
    (fun ns r => if r.nodeId = 0 then ns else appendChild ns r.parentId r.nodeId) base
  let final := P.words.foldl (fun ns w => setWordId ns w.2 w.1) withChildren
  ⟨P.k, P.depth, P.weightingId, P.scoringId, final, P.words⟩

/-- Modelled from the spec (§4.1 Quantization): among the children of the
current node, choose the one whose descriptor minimizes `FBRISK::distance`
to `desc`; ties go to the lowest (earliest) child index. -/
def bestChild (V : Vocabulary) (desc : List Nat) : List Nat → Nat
  | [] => 0
  | c :: rest =>
    rest.foldl (fun best cand =>
      if FBRISK.distance (V.nodes.getD cand default).descriptor desc <
          FBRISK.distance (V.nodes.getD best default).descriptor desc
      then cand else best) c

/-- Modelled from the spec (§4.1 Quantization): greedy root-to-leaf descent,
one level per step; the tree has height at most `depth`, the fuel. -/
def descend (V : Vocabulary) (desc : List Nat) : Nat → Nat → Nat
  | 0, nid => nid
  | fuel + 1, nid =>
    if (V.nodes.getD nid default).children = [] then nid
    else descend V desc fuel (bestChild V desc (V.nodes.getD nid default).children)

/-- Modelled from the spec (§4.1 Quantization): `transform_one` quantizes a
descriptor by descending from the root (node 0) and returns the reached
leaf's `WordId`. -/
def Vocabulary.transform_one (V : Vocabulary) (desc : List Nat) : Nat :=
  (V.nodes.getD (descend V desc V.depth 0) default).wordId

/-- The structural invariants of a vocabulary built by `create` (spec §3,
"Vocabulary invariants", and §4.1): node ids equal their array positions;
each node's ordered children list holds exactly the non-root nodes naming
it as parent, in array order; descriptors are `L` genuine bytes; the word
map is consistent with the leaf `wordId`s; nodes outside the word map carry
the default `wordId` 0. -/
@[reducible] def Vocabulary.wf (V : Vocabulary) : Prop :=
  (∀ i < V.nodes.length, (V.nodes.getD i default).nodeId = i) ∧
    (∀ i < V.nodes.length, (V.nodes.getD i default).children =
      (List.range V.nodes.length).filter
        (fun j => decide (j ≠ 0) && decide ((V.nodes.getD j default).parentId = i))) ∧
    (∀ n ∈ V.nodes, n.descriptor.length = FBRISK.L ∧ ∀ x ∈ n.descriptor, x < 256) ∧
    (∀ w ∈ V.words, w.2 < V.nodes.length ∧ (V.nodes.getD w.2 default).wordId = w.1) ∧
    (∀ i < V.nodes.length, (∀ w ∈ V.words, w.2 ≠ i) →
      (V.nodes.getD i default).wordId = 0)

end DBoW2

section BitLemmas

open DBoW2

/-- The mask test `x & (1 << b) != 0` used throughout `FBRISK.cpp` is the
`b`-th bit of `x`. -/
theorem maskTest_eq_testBit (x b : Nat) :
    (x &&& (1 <<< b) ≠ 0) ↔ x.testBit b = true := by
  rw [Nat.shiftLeft_eq, one_mul, Nat.and_two_pow]
  cases h : x.testBit b <;> simp [h]

/-- Bits of the or-accumulation loop of `FBRISK::meanValue`: bit `b` of
`foldl` over `List.range n` or-ing in `1 <<< j` whenever `p j` holds is set
iff `b < n` and `p b`. -/
theorem testBit_orFold (p : Nat → Bool) (n : Nat) (init : Nat) (b : Nat) :
    ((List.range n).foldl
        (fun m j => if p j then m ||| (1 <<< j) else m) init).testBit b =
      (init.testBit b || (decide (b < n) && p b)) := by
  induction n generalizing init with
  | zero => simp
  | succ n ih =>
    rw [List.range_succ, List.foldl_append]
    simp only [List.foldl_cons, List.foldl_nil]
    by_cases hp : p n
    · rw [if_pos hp, Nat.testBit_lor, ih, Nat.shiftLeft_eq, one_mul]
      by_cases hb : b = n
      · subst hb
        simp [Nat.testBit_two_pow_self, Nat.lt_succ_self, hp]
      · rw [Nat.testBit_two_pow_of_ne (fun h => hb h.symm)]
        by_cases hlt : b < n
        · simp [hlt, Nat.lt_succ_of_lt hlt]
        · have : ¬ b < n + 1 := by omega
          simp [hlt, this]
    · rw [if_neg hp, ih]
      by_cases hb : b = n
      · subst hb
        simp [hp, Nat.lt_irrefl]
      · by_cases hlt : b < n
        · simp [hlt, Nat.lt_succ_of_lt hlt]
        · have : ¬ b < n + 1 := by omega
          simp [hlt, this]

/-- Counting by filtering equals summing indicator values. -/
theorem length_filter_eq_sum_ind {α : Type} (q : α → Bool) (l : List α) :
    (l.filter q).length = (l.map (fun a => if q a then 1 else 0)).sum := by
  induction l with
  | nil => rfl
  | cons a t ih =>
    by_cases h : q a <;> simp [List.filter_cons, h, ih] <;> omega

end BitLemmas

namespace DBoW2

/-- C8: `FBRISK::meanValue` is total and always resizes its output to
exactly `L` bytes; on the empty descriptor list the mean is the all-zero
descriptor of `L` bytes (`s = 0` and every bit counter is `0`, so no bit is
ever or-ed in). -/
theorem meanValue_length_and_empty :
    (∀ descriptors : List (List Nat), (FBRISK.meanValue descriptors).length = FBRISK.L) ∧
      FBRISK.meanValue [] = List.replicate FBRISK.L 0 := by
  constructor
  · intro descriptors
    simp [FBRISK.meanValue]
  · decide

/-- C1: for every non-empty list of binary descriptors of length `L` bytes,
bit `b` of byte `i` of the mean computed by `FBRISK::meanValue` is set iff
the number of input descriptors with that bit set is strictly greater than
half the number of input descriptors (`2 * count > n`); a tie leaves the
bit `0`. -/
theorem meanValue_majority (descriptors : List (List Nat)) (i b : Nat)
    (hne : descriptors ≠ []) (hlen : ∀ d ∈ descriptors, d.length = FBRISK.L)
    (hi : i < FBRISK.L) (hb : b < 8) :
    ((FBRISK.meanValue descriptors).getD i 0 &&& (1 <<< b) ≠ 0) ↔
      2 * FBRISK.bitSetCount descriptors i b > descriptors.length := by
  clear hne hlen
  have hbyte : (FBRISK.meanValue descriptors).getD i 0 =
      (List.range 8).foldl
        (fun m b => if FBRISK.bitSum descriptors i b > descriptors.length / 2
          then m ||| (1 <<< b) else m) 0 := by
    rw [FBRISK.meanValue]
    rw [List.getD_eq_getElem _ _ (by simpa [FBRISK.meanValue] using hi)]
    simp [hi]
  rw [maskTest_eq_testBit, hbyte]
  have := testBit_orFold
    (fun j => decide (FBRISK.bitSum descriptors i j > descriptors.length / 2)) 8 0 b
  simp only [Bool.if_true_left] at this ⊢
  rw [show (fun m j => if FBRISK.bitSum descriptors i j > descriptors.length / 2
        then m ||| (1 <<< j) else m) =
      (fun m j => if (decide (FBRISK.bitSum descriptors i j > descriptors.length / 2)) = true
        then m ||| (1 <<< j) else m) by
    funext m j
    simp]
  rw [this]
  have hcount : FBRISK.bitSetCount descriptors i b = FBRISK.bitSum descriptors i b := by
    rw [FBRISK.bitSetCount, FBRISK.bitSum,
      length_filter_eq_sum_ind (fun d => d.getD i 0 &&& (1 <<< b) != 0) descriptors]
    congr 1
    congr 1
    funext d
    rw [FBRISK.bitInd]
    by_cases h : d.getD i 0 &&& (1 <<< b) ≠ 0
    · simp [h, bne_iff_ne]
    · simp only [ne_eq, not_not] at h
      simp [h]
  rw [hcount]
  simp only [Nat.zero_testBit, Bool.false_or, Bool.and_eq_true, decide_eq_true_eq]
  constructor
  · rintro ⟨-, hgt⟩
    omega
  · intro hgt
    exact ⟨hb, by omega⟩

/-- C2: `FBRISK::distance(a, b)` equals the Hamming distance between the
two `L`-byte descriptors: the popcount of the byte-wise XOR over
`L/16 = 3` 16-byte blocks covers exactly the `L = 48` bytes, and per byte
the popcount of the XOR counts the differing bit positions. -/
theorem distance_eq_hamming (a b : List Nat)
    (hla : a.length = FBRISK.L) (hlb : b.length = FBRISK.L)
    (hba : ∀ x ∈ a, x < 256) (hbb : ∀ x ∈ b, x < 256) :
    FBRISK.distance a b = (FBRISK.hammingDistance a b : Int) := by
  clear hla hlb hba hbb
  have key : FBRISK.PopcntofXORed a b (FBRISK.L / 16) = FBRISK.hammingDistance a b := by
    rw [FBRISK.PopcntofXORed, FBRISK.hammingDistance]
    have hL : FBRISK.L / 16 * 16 = FBRISK.L := by decide
    rw [hL]
    refine congrArg List.sum (List.map_congr_left ?_)
    intro i _
    rw [FBRISK.bytePopcnt]
    refine congrArg List.sum (List.map_congr_left ?_)
    intro u _
    rw [Nat.testBit_xor]
    by_cases h : (a.getD i 0).testBit u = (b.getD i 0).testBit u
    · simp [h]
    · simp [h, bne_iff_ne]
  rw [FBRISK.distance, key]

/-- Witness for C2 at concrete descriptors: all-ones bytes versus all-zero
bytes, at the shared length `L = 48` with all bytes below 256. -/
theorem distance_eq_hamming_witness :
    (List.replicate 48 255).length = FBRISK.L ∧
      (∀ x ∈ List.replicate 48 (255 : Nat), x < 256) ∧
      FBRISK.distance (List.replicate 48 255) (List.replicate 48 0) =
        (FBRISK.hammingDistance (List.replicate 48 255) (List.replicate 48 0) : Int) :=
  ⟨by decide, by decide,
    distance_eq_hamming (List.replicate 48 255) (List.replicate 48 0)
      (by decide) (by decide) (by decide) (by decide)⟩

/-- C3: `FBRISK::distance` is non-negative, symmetric, and zero on equal
arguments (XOR is commutative and `x ^^^ x = 0`). -/
theorem distance_metric_properties (a b : List Nat) :
    0 ≤ FBRISK.distance a b ∧
      FBRISK.distance a b = FBRISK.distance b a ∧
      FBRISK.distance a a = 0 := by
  refine ⟨Int.natCast_nonneg _, ?_, ?_⟩
  · have key : FBRISK.PopcntofXORed a b (FBRISK.L / 16) =
        FBRISK.PopcntofXORed b a (FBRISK.L / 16) := by
      rw [FBRISK.PopcntofXORed, FBRISK.PopcntofXORed]
      refine congrArg List.sum (List.map_congr_left ?_)
      intro i _
      rw [Nat.xor_comm]
    rw [FBRISK.distance, FBRISK.distance, key]
  · have key : FBRISK.PopcntofXORed a a (FBRISK.L / 16) = 0 := by
      rw [FBRISK.PopcntofXORed]
      have hz : ∀ i ∈ List.range (FBRISK.L / 16 * 16),
          FBRISK.bytePopcnt (a.getD i 0 ^^^ a.getD i 0) = (fun _ => (0 : Nat)) i := by
        intro i _
        rw [Nat.xor_self]
        show FBRISK.bytePopcnt 0 = 0
        decide
      rw [List.map_congr_left hz]
      simp
    rw [FBRISK.distance, key]
    rfl

/-- The digit characters produced by the decimal renderer have the expected
code points. -/
theorem digitChar_toNat (d : Nat) (h : d < 10) :
    (FBRISK.digitChar d).toNat = 48 + d := by
  interval_cases d <;> decide

/-- The decimal renderer only produces digit characters. -/
theorem isDigitChar_digitChar (d : Nat) (h : d < 10) :
    FBRISK.isDigitChar (FBRISK.digitChar d) = true := by
  interval_cases d <;> decide

/-- A digit character is not a space. -/
theorem digit_ne_space (c : Char) (h : FBRISK.isDigitChar c = true) : ¬ c = ' ' := by
  intro he
  subst he
  exact absurd h (by decide)

/-- A digit character is not a minus sign. -/
theorem digit_ne_minus (c : Char) (h : FBRISK.isDigitChar c = true) : ¬ c = '-' := by
  intro he
  subst he
  exact absurd h (by decide)

/-- Unfolding of the decimal renderer on a single digit. -/
theorem natDigits_small (n : Nat) (h : n < 10) :
    FBRISK.natDigits n = [FBRISK.digitChar n] := by
  conv_lhs => unfold FBRISK.natDigits
  rw [dif_pos h]

/-- Unfolding of the decimal renderer on a multi-digit number. -/
theorem natDigits_big (n : Nat) (h : ¬ n < 10) :
    FBRISK.natDigits n =
      FBRISK.natDigits (n / 10) ++ [FBRISK.digitChar (n % 10)] := by
  conv_lhs => unfold FBRISK.natDigits
  rw [dif_neg h]

/-- The decimal rendering of a number is never empty. -/
theorem natDigits_ne_nil (n : Nat) : FBRISK.natDigits n ≠ [] := by
  unfold FBRISK.natDigits
  split
  · simp
  · simp

/-- Every character of a decimal rendering is a digit. -/
theorem natDigits_all_digit (n : Nat) :
    ∀ c ∈ FBRISK.natDigits n, FBRISK.isDigitChar c = true := by
  induction n using Nat.strong_induction_on with
  | _ n ih =>
    unfold FBRISK.natDigits
    split
    · next h =>
      intro c hc
      rw [List.mem_singleton] at hc
      subst hc
      exact isDigitChar_digitChar n h
    · next h =>
      intro c hc
      rw [List.mem_append] at hc
      rcases hc with hc | hc
      · exact ih (n / 10) (Nat.div_lt_self (by omega) (by omega)) c hc
      · rw [List.mem_singleton] at hc
        subst hc
        exact isDigitChar_digitChar (n % 10) (Nat.mod_lt n (by omega))

/-- Skipping whitespace drops a leading space. -/
theorem skipSpaces_cons_space (l : List Char) :
    FBRISK.skipSpaces (' ' :: l) = FBRISK.skipSpaces l := by
  simp [FBRISK.skipSpaces]

/-- Skipping whitespace is the identity on a digit-headed stream. -/
theorem skipSpaces_cons_digit (c : Char) (l : List Char)
    (h : FBRISK.isDigitChar c = true) : FBRISK.skipSpaces (c :: l) = c :: l := by
  have hc := digit_ne_space c h
  simp [FBRISK.skipSpaces, List.dropWhile_cons, hc]

/-- The digit accumulation loop over a rendered number: it consumes exactly
the rendered digits, shifting the accumulator by one decimal place per
digit. -/
theorem readDigits_render (n : Nat) : ∀ acc (tail : List Char),
    FBRISK.readDigits (FBRISK.natDigits n ++ tail) acc =
      FBRISK.readDigits tail (acc * 10 ^ (FBRISK.natDigits n).length + n) := by
  induction n using Nat.strong_induction_on with
  | _ n ih =>
    intro acc tail
    by_cases h : n < 10
    · rw [natDigits_small n h]
      rw [List.singleton_append, FBRISK.readDigits,
        if_pos (isDigitChar_digitChar n h), digitChar_toNat n h]
      simp
    · rw [natDigits_big n h]
      rw [List.append_assoc, List.singleton_append,
        ih (n / 10) (Nat.div_lt_self (by omega) (by omega)),
        FBRISK.readDigits,
        if_pos (isDigitChar_digitChar (n % 10) (Nat.mod_lt n (by omega))),
        digitChar_toNat (n % 10) (Nat.mod_lt n (by omega))]
      rw [List.length_append, List.length_singleton, pow_succ]
      have harith : (acc * 10 ^ (FBRISK.natDigits (n / 10)).length + n / 10) * 10 +
          (48 + n % 10 - 48) =
          acc * (10 ^ (FBRISK.natDigits (n / 10)).length * 10) +
            (10 * (n / 10) + n % 10) := by
        have : 48 + n % 10 - 48 = n % 10 := by omega
        rw [this]
        ring
      rw [harith, Nat.div_add_mod]

/-- One `ss >> tmp` extraction on a rendered byte followed by a space reads
back exactly that byte and stops at the space. -/
theorem readIntTok_render (n : Nat) (tail : List Char) :
    FBRISK.readIntTok (FBRISK.natDigits n ++ ' ' :: tail) = (Int.ofNat n, ' ' :: tail) := by
  obtain ⟨c, cs, hcs⟩ : ∃ c cs, FBRISK.natDigits n = c :: cs := by
    cases h : FBRISK.natDigits n with
    | nil => exact absurd h (natDigits_ne_nil n)
    | cons c cs => exact ⟨c, cs, rfl⟩
  have hdig : FBRISK.isDigitChar c = true :=
    natDigits_all_digit n c (by rw [hcs]; exact List.mem_cons_self c cs)
  rw [FBRISK.readIntTok]
  have hskip : FBRISK.skipSpaces (FBRISK.natDigits n ++ ' ' :: tail) =
      FBRISK.natDigits n ++ ' ' :: tail := by
    rw [hcs, List.cons_append]
    exact skipSpaces_cons_digit c (cs ++ ' ' :: tail) hdig
  simp only [hskip]
  rw [if_neg (by
    rw [hcs, List.cons_append, List.take_cons_succ, List.take_zero]
    intro hcon
    rw [List.cons.injEq] at hcon
    exact digit_ne_minus c hdig hcon.1)]
  rw [readDigits_render n 0 (' ' :: tail), FBRISK.readDigits,
    if_neg (by decide), Nat.zero_mul, Nat.zero_add]

/-- `ss >> tmp` skips a leading space. -/
theorem readIntTok_sp (cs : List Char) :
    FBRISK.readIntTok (' ' :: cs) = FBRISK.readIntTok cs := by
  simp only [FBRISK.readIntTok, skipSpaces_cons_space]

/-- A chain of extractions skips a leading space. -/
theorem readInts_sp (n : Nat) (cs : List Char) :
    FBRISK.readInts n (' ' :: cs) = FBRISK.readInts n cs := by
  cases n with
  | zero => rfl
  | succ n => rw [FBRISK.readInts, FBRISK.readInts, readIntTok_sp]

/-- Reading back a rendered list of byte values recovers the values. -/
theorem readInts_render (bs : List Nat) : ∀ tail : List Char,
    FBRISK.readInts bs.length
        ((bs.map (fun x => FBRISK.natDigits x ++ [' '])).flatten ++ tail) =
      bs.map Int.ofNat := by
  induction bs with
  | nil => intro tail; rfl
  | cons x t iht =>
    intro tail
    rw [List.map_cons, List.flatten_cons, List.length_cons, List.map_cons]
    rw [List.append_assoc, List.append_assoc, List.singleton_append]
    rw [FBRISK.readInts, readIntTok_render x (((t.map
      (fun x => FBRISK.natDigits x ++ [' '])).flatten ++ tail))]
    rw [readInts_sp, iht tail]

/-- Reindexing a list through `getD` over `List.range` of its length is the
identity (the `for` loops of `toString`/`fromString` traverse `a[0..L)`). -/
theorem map_getD_range {α β : Type} [Inhabited α] (l : List α) (g : α → β) (d : α) :
    (List.range l.length).map (fun i => g (l.getD i d)) = l.map g := by
  apply List.ext_getElem
  · simp
  · intro i h1 h2
    simp only [List.getElem_map, List.getElem_range]
    rw [List.getD_eq_getElem]

/-- The string round-trip of `FBRISK`, as an equation usable by the
persistence lemmas. -/
theorem fromString_toString_eq (a : List Nat)
    (hlen : a.length = FBRISK.L) (hbytes : ∀ x ∈ a, x < 256) :
    FBRISK.fromString (FBRISK.toString a) = a := by
  rw [FBRISK.toString, FBRISK.fromString]
  show (FBRISK.readInts FBRISK.L
      ((List.range FBRISK.L).map (fun i => FBRISK.natDigits (a.getD i 0) ++ [' '])).flatten).map
        (fun t => (t % 256).toNat) = a
  rw [← hlen]
  rw [show (List.range a.length).map (fun i => FBRISK.natDigits (a.getD i 0) ++ [' ']) =
      a.map (fun x => FBRISK.natDigits x ++ [' ']) from
    map_getD_range a (fun x => FBRISK.natDigits x ++ [' ']) 0]
  rw [← List.append_nil ((a.map (fun x => FBRISK.natDigits x ++ [' '])).flatten)]
  rw [readInts_render a [], List.map_map]
  have hid : ∀ x ∈ a, ((fun t => (t % 256).toNat) ∘ Int.ofNat) x = id x := by
    intro x hx
    have hlt : x < 256 := hbytes x hx
    simp only [Function.comp_apply, id_eq, Int.ofNat_eq_natCast]
    have h0 : (x : Int) % 256 = (x : Int) :=
      Int.emod_eq_of_lt (by exact_mod_cast Nat.zero_le x) (by exact_mod_cast hlt)
    rw [h0, Int.toNat_natCast]
  rw [List.map_congr_left hid, List.map_id]

/-- C4: the string round-trip of `FBRISK` is lossless: `FBRISK::fromString`
applied to `FBRISK::toString(a)` yields `a` back, for every descriptor of
`L` bytes (each byte below 256). -/
theorem fromString_toString (a : List Nat)
    (hlen : a.length = FBRISK.L) (hbytes : ∀ x ∈ a, x < 256) :
    FBRISK.fromString (FBRISK.toString a) = a :=
  fromString_toString_eq a hlen hbytes

/-- Witness for C4 at a concrete descriptor: the bytes `0..47`. -/
theorem fromString_toString_witness :
    (List.range 48).length = FBRISK.L ∧ (∀ x ∈ List.range 48, x < 256) ∧
      FBRISK.fromString (FBRISK.toString (List.range 48)) = List.range 48 :=
  ⟨by decide, by decide,
    fromString_toString (List.range 48) (by decide) (by decide)⟩

set_option maxRecDepth 4000 in
/-- C9: `FBRISK::toMat32F` does NOT place bit `b` of byte `j` at column
`8*j + b`.  On a descriptor whose byte 1 has bit 0 set (and byte 8 zero),
the matrix is created with `L*8` columns, yet entry `(0, 8*1 + 0)` is `0`:
the loop reads `desc[j]` with `j` stepping by 8, i.e. byte `8*t` for column
block `t` instead of byte `t` (and past the descriptor for `8*t >= L`). -/
theorem toMat32F_uses_wrong_byte :
    FBRISK.toMat32F [bugDesc] ≠ none ∧
      (((FBRISK.toMat32F [bugDesc]).getD []).getD 0 []).length = FBRISK.L * 8 ∧
      (bugDesc.getD 1 0 &&& (1 <<< 0) ≠ 0) ∧
      (((FBRISK.toMat32F [bugDesc]).getD []).getD 0 []).getD (8 * 1 + 0) 1 = 0 := by
  decide

/-- Index-writing folds (`out[j] = ...` in a loop) preserve the length of
the output vector. -/
theorem foldl_set_length {α : Type} (g : Nat → α) :
    ∀ (js : List Nat) (out : List α),
      (js.foldl (fun o j => o.set j (g j)) out).length = out.length := by
  intro js
  induction js with
  | nil => intro out; rfl
  | cons j t ih =>
    intro out
    rw [List.foldl_cons, ih, List.length_set]

/-- Positions not written by an index-writing fold keep their value. -/
theorem foldl_set_preserve {α : Type} (g : Nat → α) (d : α) :
    ∀ (js : List Nat) (out : List α) (i : Nat), (∀ j ∈ js, j ≠ i) →
      (js.foldl (fun o j => o.set j (g j)) out).getD i d = out.getD i d := by
  intro js
  induction js with
  | nil => intro out i _; rfl
  | cons j t ih =>
    intro out i hne
    rw [List.foldl_cons, ih _ _ (fun j hj => hne j (List.mem_cons_of_mem _ hj)),
      List.getD_eq_getElem?_getD, List.getD_eq_getElem?_getD,
      List.getElem?_set_ne (hne j (List.mem_cons_self j t))]

/-- A position written by an index-writing fold holds the assigned value. -/
theorem foldl_set_get {α : Type} (g : Nat → α) (d : α) :
    ∀ (js : List Nat) (out : List α) (i : Nat), i ∈ js → i < out.length →
      (js.foldl (fun o j => o.set j (g j)) out).getD i d = g i := by
  intro js
  induction js with
  | nil => intro out i hm _; exact absurd hm (List.not_mem_nil i)
  | cons j t ih =>
    intro out i hm hlt
    rw [List.foldl_cons]
    by_cases hmt : i ∈ t
    · exact ih _ i hmt (by rw [List.length_set]; exact hlt)
    · have hij : i = j := by
        rcases List.mem_cons.mp hm with h | h
        · exact h
        · exact absurd h hmt
      subst hij
      rw [foldl_set_preserve g d t _ i (fun j' hj' hji => hmt (hji ▸ hj')),
        List.getD_eq_getElem?_getD, List.getElem?_set_self (by exact hlt),
        Option.getD_some]

/-- C10: on a continuous byte matrix with `rows` rows and exactly
`L = FBRISK.L` columns, both `changeStructure` (with byte length `L`) and
`changeStructureBRISK` produce exactly `rows` descriptors of exactly `L`
bytes, and byte `b` of descriptor `j` is the matrix element at row `j`,
column `b` (offset `j * L + b` of the row-major data). -/
theorem changeStructure_chunks (rows : Nat) (data : List Nat) (j b : Nat)
    (hj : j < rows) (hb : b < FBRISK.L) :
    (changeStructure rows FBRISK.L data FBRISK.L).length = rows ∧
      (changeStructureBRISK rows FBRISK.L data).length = rows ∧
      ((changeStructure rows FBRISK.L data FBRISK.L).getD j []).length = FBRISK.L ∧
      ((changeStructureBRISK rows FBRISK.L data).getD j []).length = FBRISK.L ∧
      ((changeStructure rows FBRISK.L data FBRISK.L).getD j []).getD b 0 =
        data.getD (j * FBRISK.L + b) 0 ∧
      ((changeStructureBRISK rows FBRISK.L data).getD j []).getD b 0 =
        data.getD (j * FBRISK.L + b) 0 := by
  have hcount : (rows * FBRISK.L + FBRISK.L - 1) / FBRISK.L = rows := by
    show (rows * 48 + 48 - 1) / 48 = rows
    omega
  have hrow : (changeStructure rows FBRISK.L data FBRISK.L).getD j [] =
      (List.range FBRISK.L).map (fun t => data.getD (j * FBRISK.L + t) 0) := by
    rw [changeStructure, hcount]
    exact foldl_set_get _ [] (List.range rows) _ j (List.mem_range.mpr hj)
      (by rw [List.length_replicate]; exact hj)
  have hrowB : (changeStructureBRISK rows FBRISK.L data).getD j [] =
      (List.range FBRISK.L).map (fun t => data.getD (j * FBRISK.L + t) 0) := by
    rw [changeStructureBRISK,
      List.getD_eq_getElem _ _ (by rw [List.length_map, List.length_range]; exact hj),
      List.getElem_map, List.getElem_range]
  refine ⟨?_, ?_, ?_, ?_, ?_, ?_⟩
  · rw [changeStructure, hcount, foldl_set_length, List.length_replicate]
  · rw [changeStructureBRISK, List.length_map, List.length_range]
  · rw [hrow, List.length_map, List.length_range]
  · rw [hrowB, List.length_map, List.length_range]
  · rw [hrow, List.getD_eq_getElem _ _
      (by rw [List.length_map, List.length_range]; exact hb),
      List.getElem_map, List.getElem_range]
  · rw [hrowB, List.getD_eq_getElem _ _
      (by rw [List.length_map, List.length_range]; exact hb),
      List.getElem_map, List.getElem_range]

/-- Witness for C10 at a concrete matrix: 2 rows of 48 bytes holding
`0..95`, row 1, byte 2. -/
theorem changeStructure_chunks_witness :
    (1 : Nat) < 2 ∧ (2 : Nat) < FBRISK.L ∧
      ((changeStructure 2 FBRISK.L (List.range 96) FBRISK.L).length = 2 ∧
        (changeStructureBRISK 2 FBRISK.L (List.range 96)).length = 2 ∧
        ((changeStructure 2 FBRISK.L (List.range 96) FBRISK.L).getD 1 []).length = FBRISK.L ∧
        ((changeStructureBRISK 2 FBRISK.L (List.range 96)).getD 1 []).length = FBRISK.L ∧
        ((changeStructure 2 FBRISK.L (List.range 96) FBRISK.L).getD 1 []).getD 2 0 =
          (List.range 96).getD (1 * FBRISK.L + 2) 0 ∧
        ((changeStructureBRISK 2 FBRISK.L (List.range 96)).getD 1 []).getD 2 0 =
          (List.range 96).getD (1 * FBRISK.L + 2) 0) :=
  ⟨by decide, by decide,
    changeStructure_chunks 2 (List.range 96) 1 2 (by decide) (by decide)⟩

/-- The word pass appends each persisted word record once, in order: the
result is exactly the persisted list. -/
theorem loadWords_eq (records : List (Nat × Nat)) : loadWords records = records := by
  suffices h : ∀ (rs : List (Nat × Nat)) (acc : List (Nat × Nat)),
      rs.foldl (fun word_data p => word_data ++ [p]) acc = acc ++ rs by
    rw [loadWords, h, List.nil_append]
  intro rs
  induction rs with
  | nil => intro acc; rw [List.foldl_nil, List.append_nil]
  | cons p t ih =>
    intro acc
    rw [List.foldl_cons, ih, List.append_assoc, List.singleton_append]

/-- One node-loop iteration leaves the vector long enough for the written
slot and does not shrink it. -/
theorem loadNodesStep_length (ns : List NodeData) (r : NodeData) :
    (loadNodesStep ns r).length = max ns.length (r.id + 1) := by
  rw [loadNodesStep]
  by_cases h : ns.length ≤ r.id
  · rw [if_pos h, List.length_set, List.length_append, List.length_replicate]
    omega
  · rw [if_neg h, List.length_set]
    omega

/-- One node-loop iteration stores the record at index `nid`. -/
theorem loadNodesStep_get_self (ns : List NodeData) (r : NodeData) :
    (loadNodesStep ns r).getD r.id valueInit = r := by
  have hlt : r.id < (if ns.length ≤ r.id then
      ns ++ List.replicate (r.id + 1 - ns.length) valueInit else ns).length := by
    by_cases h : ns.length ≤ r.id
    · rw [if_pos h, List.length_append, List.length_replicate]
      omega
    · rw [if_neg h]
      omega
  rw [loadNodesStep, List.getD_eq_getElem?_getD, List.getElem?_set_self hlt,
    Option.getD_some]

/-- One node-loop iteration does not touch other indices already present. -/
theorem loadNodesStep_get_other (ns : List NodeData) (r : NodeData) (i : Nat)
    (hne : r.id ≠ i) (hi : i < ns.length) :
    (loadNodesStep ns r).getD i valueInit = ns.getD i valueInit := by
  rw [loadNodesStep, List.getD_eq_getElem?_getD, List.getElem?_set_ne hne,
    ← List.getD_eq_getElem?_getD]
  by_cases h : ns.length ≤ r.id
  · rw [if_pos h, List.getD_append _ _ _ _ hi]
  · rw [if_neg h]

/-- Later node-loop iterations with other node ids preserve a stored slot
and never shrink the vector. -/
theorem loadNodes_preserve (t : List NodeData) :
    ∀ (ns : List NodeData) (i : Nat), i < ns.length → (∀ r ∈ t, r.id ≠ i) →
      i < (t.foldl loadNodesStep ns).length ∧
        (t.foldl loadNodesStep ns).getD i valueInit = ns.getD i valueInit := by
  induction t with
  | nil => intro ns i hi _; exact ⟨hi, rfl⟩
  | cons r t ih =>
    intro ns i hi hne
    rw [List.foldl_cons]
    have hi' : i < (loadNodesStep ns r).length := by
      rw [loadNodesStep_length]
      omega
    obtain ⟨h1, h2⟩ := ih (loadNodesStep ns r) i hi'
      (fun r' hr' => hne r' (List.mem_cons_of_mem _ hr'))
    exact ⟨h1, by
      rw [h2, loadNodesStep_get_other ns r i (hne r (List.mem_cons_self r t)) hi]⟩

/-- The node pass, started from any vector, stores every record with a
fresh node id at index `nid`. -/
theorem loadNodes_stores (records : List NodeData) :
    ∀ ns : List NodeData, (records.map NodeData.id).Nodup →
      ∀ r ∈ records, r.id < (records.foldl loadNodesStep ns).length ∧
        (records.foldl loadNodesStep ns).getD r.id valueInit = r := by
  induction records with
  | nil => intro ns _ r hr; exact absurd hr (List.not_mem_nil r)
  | cons h t ih =>
    intro ns hnodup r hr
    rw [List.map_cons, List.nodup_cons] at hnodup
    rw [List.foldl_cons]
    rcases List.mem_cons.mp hr with hrh | hrt
    · subst hrh
      have hfresh : ∀ r' ∈ t, r'.id ≠ r.id := by
        intro r' hr' heq
        exact hnodup.1 (heq ▸ List.mem_map_of_mem NodeData.id hr')
      have hlt : r.id < (loadNodesStep ns r).length := by
        rw [loadNodesStep_length]
        omega
      obtain ⟨h1, h2⟩ := loadNodes_preserve t (loadNodesStep ns r) r.id hlt hfresh
      exact ⟨h1, by rw [h2, loadNodesStep_get_self]⟩
    · exact ih (loadNodesStep ns h) hnodup.2 r hrt

/-- C5: `FastVocabularyLoader::load` on a readable vocabulary file is one
fold (a single iterator pass) over the persisted node records and one over
the persisted word records; the word pass returns exactly the persisted
word list, and every persisted record with node id `nid` ends up stored at
index `nid` of the in-memory node vector. -/
theorem fastLoad_stores_records (f : VocFile)
    (ho : f.opened = true) (hv : f.hasVocabularyNode = true)
    (hnodup : (f.nodes.map NodeData.id).Nodup) :
    FastVocabularyLoader.load f = Except.ok (loadNodes f.nodes, f.words) ∧
      ∀ r ∈ f.nodes, r.id < (loadNodes f.nodes).length ∧
        (loadNodes f.nodes).getD r.id valueInit = r := by
  constructor
  · rw [FastVocabularyLoader.load, ho, if_neg (by simp), hv, if_neg (by simp),
      loadWords_eq]
  · exact loadNodes_stores f.nodes _ hnodup

/-- Witness for C5 at a concrete file: three node records with distinct,
out-of-order ids and one word record. -/
theorem fastLoad_stores_records_witness :
    ((⟨true, true, "voc.yml", 10, 6, 0, 0,
        [⟨2, 0, 5, "a"⟩, ⟨1, 0, 7, "b"⟩, ⟨3, 1, 9, "c"⟩],
        [(0, 2)]⟩ : VocFile).opened = true ∧
      (([⟨2, 0, 5, "a"⟩, ⟨1, 0, 7, "b"⟩, ⟨3, 1, 9, "c"⟩] :
        List NodeData).map NodeData.id).Nodup) ∧
      (FastVocabularyLoader.load
          ⟨true, true, "voc.yml", 10, 6, 0, 0,
            [⟨2, 0, 5, "a"⟩, ⟨1, 0, 7, "b"⟩, ⟨3, 1, 9, "c"⟩], [(0, 2)]⟩ =
        Except.ok (loadNodes [⟨2, 0, 5, "a"⟩, ⟨1, 0, 7, "b"⟩, ⟨3, 1, 9, "c"⟩],
          [(0, 2)]) ∧
      ∀ r ∈ ([⟨2, 0, 5, "a"⟩, ⟨1, 0, 7, "b"⟩, ⟨3, 1, 9, "c"⟩] : List NodeData),
        r.id < (loadNodes [⟨2, 0, 5, "a"⟩, ⟨1, 0, 7, "b"⟩, ⟨3, 1, 9, "c"⟩]).length ∧
          (loadNodes [⟨2, 0, 5, "a"⟩, ⟨1, 0, 7, "b"⟩, ⟨3, 1, 9, "c"⟩]).getD
            r.id valueInit = r) :=
  ⟨⟨rfl, by decide⟩,
    fastLoad_stores_records
      ⟨true, true, "voc.yml", 10, 6, 0, 0,
        [⟨2, 0, 5, "a"⟩, ⟨1, 0, 7, "b"⟩, ⟨3, 1, 9, "c"⟩], [(0, 2)]⟩
      rfl rfl (by decide)⟩

/-- C6: `FastVocabularyLoader::load` fails iff the file cannot be opened or
the opened file has no `vocabulary` node; in either failure case the result
does not depend on the node or word data (none of it is read). -/
theorem fastLoad_fails_iff (f : VocFile) :
    ((∃ e, FastVocabularyLoader.load f = Except.error e) ↔
        (f.opened = false ∨ f.hasVocabularyNode = false)) ∧
      ((f.opened = false ∨ f.hasVocabularyNode = false) →
        FastVocabularyLoader.load f =
          FastVocabularyLoader.load { f with nodes := [], words := [] }) := by
  by_cases ho : f.opened <;> by_cases hv : f.hasVocabularyNode <;>
    simp [FastVocabularyLoader.load, ho, hv]

/-- Witness for C6: on a concrete unopenable file the failure result is the
same with the node and word data removed. -/
theorem fastLoad_fails_iff_witness :
    FastVocabularyLoader.load
        (⟨false, true, "missing.yml", 0, 0, 0, 0, [⟨1, 0, 2, "x"⟩], [(0, 1)]⟩ :
          VocFile) =
      FastVocabularyLoader.load
        { (⟨false, true, "missing.yml", 0, 0, 0, 0, [⟨1, 0, 2, "x"⟩], [(0, 1)]⟩ :
          VocFile) with nodes := [], words := [] } :=
  (fastLoad_fails_iff
    ⟨false, true, "missing.yml", 0, 0, 0, 0, [⟨1, 0, 2, "x"⟩], [(0, 1)]⟩).2
    (Or.inl rfl)

/-- Registering a child does not change the number of nodes. -/
theorem appendChild_length (ns : List VocNode) (p c : Nat) :
    (appendChild ns p c).length = ns.length := by
  rw [appendChild, List.length_set]

/-- Registering a child appends it to the parent's children list. -/
theorem appendChild_getD_self (ns : List VocNode) (p c : Nat) (hp : p < ns.length) :
    (appendChild ns p c).getD p default =
      { ns.getD p default with children := (ns.getD p default).children ++ [c] } := by
  rw [appendChild, List.getD_eq_getElem?_getD, List.getElem?_set_self hp,
    Option.getD_some]

/-- Registering a child leaves every other node unchanged. -/
theorem appendChild_getD_other (ns : List VocNode) (p c i : Nat) (hne : p ≠ i) :
    (appendChild ns p c).getD i default = ns.getD i default := by
  rw [appendChild, List.getD_eq_getElem?_getD, List.getElem?_set_ne hne,
    ← List.getD_eq_getElem?_getD]

/-- The children-reconstruction loop of `load` preserves the node count. -/
theorem persFold_length :
    ∀ (rs : List PersistedNode) (ns : List VocNode),
      (rs.foldl (fun ns r =>
        if r.nodeId = 0 then ns else appendChild ns r.parentId r.nodeId) ns).length =
        ns.length := by
  intro rs
  induction rs with
  | nil => intro ns; rfl
  | cons r t ih =>
    intro ns
    rw [List.foldl_cons]
    by_cases h : r.nodeId = 0
    · rw [if_pos h, ih]
    · rw [if_neg h, ih, appendChild_length]

/-- After the children-reconstruction loop, node `i` carries its initial
children followed by the node ids of exactly the processed non-root records
naming `i` as parent, in record order. -/
theorem persFold_getD :
    ∀ (rs : List PersistedNode) (ns : List VocNode) (i : Nat), i < ns.length →
      (rs.foldl (fun ns r =>
          if r.nodeId = 0 then ns else appendChild ns r.parentId r.nodeId) ns).getD
            i default =
        { ns.getD i default with children := ((ns.getD i default).children ++
            (rs.filter (fun r => decide (r.nodeId ≠ 0) && decide (r.parentId = i))).map
              (fun r => r.nodeId)) } := by
  intro rs
  induction rs with
  | nil => intro ns i _; simp
  | cons r t ih =>
    intro ns i hi
    rw [List.foldl_cons, List.filter_cons]
    by_cases h0 : r.nodeId = 0
    · rw [if_pos h0]
      have hq : (decide (r.nodeId ≠ 0) && decide (r.parentId = i)) = false := by
        simp [h0]
      rw [hq, if_neg (by simp), ih ns i hi]
    · rw [if_neg h0]
      by_cases hp : r.parentId = i
      · have hq : (decide (r.nodeId ≠ 0) && decide (r.parentId = i)) = true := by
          simp [h0, hp]
        rw [hq, if_pos rfl, ih (appendChild ns r.parentId r.nodeId) i
          (by rw [appendChild_length]; exact hi), hp,
          appendChild_getD_self ns i r.nodeId hi]
        simp [List.append_assoc]
      · have hq : (decide (r.nodeId ≠ 0) && decide (r.parentId = i)) = false := by
          simp [hp]
        rw [hq, if_neg (by simp), ih (appendChild ns r.parentId r.nodeId) i
          (by rw [appendChild_length]; exact hi),
          appendChild_getD_other ns r.parentId r.nodeId i hp]

/-- In a node array whose ids equal their positions, filtering nodes and
taking their ids is filtering the position range. -/
theorem filter_nodeId_range (q : VocNode → Bool) :
    ∀ nodes : List VocNode,
      (∀ t < nodes.length, (nodes.getD t default).nodeId = t) →
      (nodes.filter q).map (fun n => n.nodeId) =
        (List.range nodes.length).filter (fun j => q (nodes.getD j default)) := by
  intro nodes
  induction nodes using List.reverseRecOn with
  | nil => intro _; rfl
  | append_singleton l x ihl =>
    intro hid
    have hlen : (l ++ [x]).length = l.length + 1 := by
      rw [List.length_append, List.length_singleton]
    have hpre : ∀ t < l.length, (l.getD t default).nodeId = t := by
      intro t ht
      have := hid t (by omega)
      rwa [List.getD_append _ _ _ _ ht] at this
    have hx : x.nodeId = l.length := by
      have := hid l.length (by omega)
      rwa [List.getD_append_right _ _ _ _ (Nat.le_refl _), Nat.sub_self] at this
    rw [hlen, List.range_succ, List.filter_append, List.filter_append,
      List.map_append, ihl hpre]
    congr 1
    · refine List.filter_congr ?_
      intro j hj
      rw [List.getD_append _ _ _ _ (List.mem_range.mp hj)]
    · have hgx : (l ++ [x]).getD l.length default = x := by
        rw [List.getD_append_right _ _ _ _ (Nat.le_refl _), Nat.sub_self]
        rfl
      by_cases hqx : q x
      · simp [List.filter_cons, hgx, hqx, hx]
      · rw [Bool.not_eq_true] at hqx
        simp [List.filter_cons, hgx, hqx]

/-- Recording a word id does not change the number of nodes. -/
theorem setWordId_length (ns : List VocNode) (nid wid : Nat) :
    (setWordId ns nid wid).length = ns.length := by
  rw [setWordId, List.length_set]

/-- Recording a word id sets exactly the `wordId` field of that node. -/
theorem setWordId_getD_self (ns : List VocNode) (nid wid : Nat) (h : nid < ns.length) :
    (setWordId ns nid wid).getD nid default =
      { ns.getD nid default with wordId := wid } := by
  rw [setWordId, List.getD_eq_getElem?_getD, List.getElem?_set_self h,
    Option.getD_some]

/-- Recording a word id leaves every other node unchanged. -/
theorem setWordId_getD_other (ns : List VocNode) (nid wid i : Nat) (hne : nid ≠ i) :
    (setWordId ns nid wid).getD i default = ns.getD i default := by
  rw [setWordId, List.getD_eq_getElem?_getD, List.getElem?_set_ne hne,
    ← List.getD_eq_getElem?_getD]

/-- The word-map loop of `load` preserves the node count. -/
theorem wordFold_length :
    ∀ (ws : List (Nat × Nat)) (ns : List VocNode),
      (ws.foldl (fun ns w => setWordId ns w.2 w.1) ns).length = ns.length := by
  intro ws
  induction ws with
  | nil => intro ns; rfl
  | cons w t ih =>
    intro ns
    rw [List.foldl_cons, ih, setWordId_length]

/-- The word-map loop of `load` preserves the node count and rewrites each
node's `wordId` by a last-write-wins fold over the word records. -/
theorem wordFold_getD (ws : List (Nat × Nat)) :
    ∀ (ns : List VocNode) (i : Nat), i < ns.length →
      (ws.foldl (fun ns w => setWordId ns w.2 w.1) ns).length = ns.length ∧
        (ws.foldl (fun ns w => setWordId ns w.2 w.1) ns).getD i default =
          { ns.getD i default with wordId := (ws.foldl
              (fun acc w => if w.2 = i then w.1 else acc)
              (ns.getD i default).wordId) } := by
  induction ws with
  | nil => intro ns i _; exact ⟨rfl, rfl⟩
  | cons w t ih =>
    intro ns i hi
    rw [List.foldl_cons, List.foldl_cons]
    obtain ⟨ihlen, ihget⟩ := ih (setWordId ns w.2 w.1) i (by rw [setWordId_length]; exact hi)
    refine ⟨by rw [ihlen, setWordId_length], ?_⟩
    by_cases hw : w.2 = i
    · rw [ihget, if_pos hw, hw, setWordId_getD_self ns i w.1 hi]
    · rw [ihget, if_neg hw, setWordId_getD_other ns w.2 w.1 i hw]

/-- When every word record aiming at node `i` carries the same word id, the
last-write-wins fold returns that id (or the start value when no record
aims at `i`). -/
theorem foldWid_eq (i target : Nat) :
    ∀ ws : List (Nat × Nat), (∀ w ∈ ws, w.2 = i → w.1 = target) →
      ∀ acc : Nat, ws.foldl (fun acc w => if w.2 = i then w.1 else acc) acc =
        if ∀ w ∈ ws, w.2 ≠ i then acc else target := by
  intro ws
  induction ws with
  | nil =>
    intro _ acc
    rw [List.foldl_nil, if_pos (fun w hw => absurd hw (List.not_mem_nil w))]
  | cons w t ih =>
    intro h acc
    rw [List.foldl_cons]
    by_cases hw : w.2 = i
    · rw [if_pos hw, ih (fun w' hw' => h w' (List.mem_cons_of_mem _ hw')) (w.1)]
      have htar : w.1 = target := h w (List.mem_cons_self w t) hw
      have hcons : ¬ ∀ w' ∈ w :: t, w'.2 ≠ i :=
        fun hall => hall w (List.mem_cons_self w t) hw
      by_cases ht : ∀ w' ∈ t, w'.2 ≠ i
      · rw [if_pos ht, if_neg hcons, htar]
      · rw [if_neg ht, if_neg hcons]
    · rw [if_neg hw, ih (fun w' hw' => h w' (List.mem_cons_of_mem _ hw')) acc]
      by_cases ht : ∀ w' ∈ t, w'.2 ≠ i
      · have hcons : ∀ w' ∈ w :: t, w'.2 ≠ i := by
          intro w' hw'
          rcases List.mem_cons.mp hw' with h1 | h1
          · exact h1 ▸ hw
          · exact ht w' h1
        rw [if_pos ht, if_pos hcons]
      · have hcons : ¬ ∀ w' ∈ w :: t, w'.2 ≠ i :=
          fun hall => ht (fun w' hw' => hall w' (List.mem_cons_of_mem _ hw'))
        rw [if_neg ht, if_neg hcons]

/-- `getD` through a node-array `map` at an in-range index. -/
theorem getD_map_voc (l : List VocNode) (g : VocNode → VocNode) (i : Nat)
    (h : i < l.length) : (l.map g).getD i default = g (l.getD i default) := by
  rw [List.getD_eq_getElem _ _ (by rw [List.length_map]; exact h), List.getElem_map,
    List.getD_eq_getElem _ _ h]

/-- `load` is a left inverse of `save` on well-formed vocabularies: node
order and ids are preserved, descriptors survive the string round-trip,
children lists are re-created exactly, and word ids are restored. -/
theorem load_save (V : Vocabulary) (hwf : V.wf) :
    Vocabulary.load (Vocabulary.save V) = V := by
  obtain ⟨hid, hchild, hdesc, hwords, hwid0⟩ := hwf
  obtain ⟨k, d, wt, sc, nodes, words⟩ := V
  dsimp only at hid hchild hdesc hwords hwid0
  simp only [Vocabulary.save, Vocabulary.load]
  rw [Vocabulary.mk.injEq]
  refine ⟨rfl, rfl, rfl, rfl, ?_, rfl⟩
  have hbase : (nodes.map (fun n =>
      PersistedNode.mk n.nodeId n.parentId n.weight (FBRISK.toString n.descriptor))).map
        (fun r => VocNode.mk r.nodeId r.parentId r.weight
          (FBRISK.fromString r.descriptorStr) [] 0) =
      nodes.map (fun n =>
        VocNode.mk n.nodeId n.parentId n.weight n.descriptor [] 0) := by
    rw [List.map_map]
    refine List.map_congr_left ?_
    intro n hn
    show VocNode.mk n.nodeId n.parentId n.weight
      (FBRISK.fromString (FBRISK.toString n.descriptor)) [] 0 = _
    rw [fromString_toString_eq n.descriptor (hdesc n hn).1 (hdesc n hn).2]
  rw [hbase]
  apply List.ext_getElem
  · rw [wordFold_length, persFold_length, List.length_map]
  · intro i h1 h2
    rw [← List.getD_eq_getElem _ default h1, ← List.getD_eq_getElem _ default h2]
    have hbl : i < (nodes.map (fun n =>
        VocNode.mk n.nodeId n.parentId n.weight n.descriptor [] 0)).length := by
      rw [List.length_map]; exact h2
    have hwget := (wordFold_getD words
      ((nodes.map (fun n =>
        PersistedNode.mk n.nodeId n.parentId n.weight (FBRISK.toString n.descriptor))).foldl
          (fun ns r => if r.nodeId = 0 then ns else appendChild ns r.parentId r.nodeId)
          (nodes.map (fun n =>
            VocNode.mk n.nodeId n.parentId n.weight n.descriptor [] 0)))
      i (by rw [persFold_length]; exact hbl)).2
    rw [hwget, persFold_getD
      (nodes.map (fun n =>
        PersistedNode.mk n.nodeId n.parentId n.weight (FBRISK.toString n.descriptor)))
      (nodes.map (fun n => VocNode.mk n.nodeId n.parentId n.weight n.descriptor [] 0))
      i hbl, getD_map_voc nodes _ i h2]
    dsimp only
    rw [List.nil_append]
    have hfm : ((nodes.map (fun n =>
        PersistedNode.mk n.nodeId n.parentId n.weight
          (FBRISK.toString n.descriptor))).filter
            (fun r => decide (r.nodeId ≠ 0) && decide (r.parentId = i))).map
          (fun r => r.nodeId) =
        (List.range nodes.length).filter
          (fun j => decide (j ≠ 0) && decide ((nodes.getD j default).parentId = i)) := by
      rw [List.filter_map, List.map_map]
      have hmid : (nodes.filter
          (fun n => decide (n.nodeId ≠ 0) && decide (n.parentId = i))).map
            (fun n => n.nodeId) =
          (List.range nodes.length).filter
            (fun j => decide ((nodes.getD j default).nodeId ≠ 0) &&
              decide ((nodes.getD j default).parentId = i)) :=
        filter_nodeId_range _ nodes hid
      refine hmid.trans ?_
      refine List.filter_congr ?_
      intro j hj
      rw [hid j (List.mem_range.mp hj)]
    rw [hfm, ← hchild i h2]
    have htarget : ∀ w ∈ words, w.2 = i → w.1 = (nodes.getD i default).wordId := by
      intro w hw he
      rw [← (hwords w hw).2, he]
    rw [foldWid_eq i ((nodes.getD i default).wordId) words htarget 0]
    by_cases hnone : ∀ w ∈ words, w.2 ≠ i
    · rw [if_pos hnone, ← hwid0 i h2 hnone]
    · rw [if_neg hnone]

/-- C7: saving and re-loading a (well-formed, `create`-built) vocabulary
preserves quantization: `transform_one` of the re-loaded vocabulary agrees
with the original on every descriptor. -/
theorem transform_one_roundtrip (V : Vocabulary) (hwf : V.wf) (desc : List Nat) :
    Vocabulary.transform_one (Vocabulary.load (Vocabulary.save V)) desc =
      Vocabulary.transform_one V desc := by
  rw [load_save V hwf]

/-- Witness for C7: a concrete 3-node vocabulary (root with two leaf
children) and a concrete descriptor. -/
theorem transform_one_roundtrip_witness :
    (Vocabulary.mk 2 1 0 0
        [VocNode.mk 0 0 0 (List.replicate 48 0) [1, 2] 0,
          VocNode.mk 1 0 3 (List.replicate 48 0) [] 0,
          VocNode.mk 2 0 5 (List.replicate 48 255) [] 1]
        [(0, 1), (1, 2)]).wf ∧
      Vocabulary.transform_one
          (Vocabulary.load (Vocabulary.save (Vocabulary.mk 2 1 0 0
            [VocNode.mk 0 0 0 (List.replicate 48 0) [1, 2] 0,
              VocNode.mk 1 0 3 (List.replicate 48 0) [] 0,
              VocNode.mk 2 0 5 (List.replicate 48 255) [] 1]
            [(0, 1), (1, 2)])))
          (List.replicate 48 0) =
        Vocabulary.transform_one (Vocabulary.mk 2 1 0 0
          [VocNode.mk 0 0 0 (List.replicate 48 0) [1, 2] 0,
            VocNode.mk 1 0 3 (List.replicate 48 0) [] 0,
            VocNode.mk 2 0 5 (List.replicate 48 255) [] 1]
          [(0, 1), (1, 2)])
          (List.replicate 48 0) :=
  ⟨by decide,
    transform_one_roundtrip (Vocabulary.mk 2 1 0 0
      [VocNode.mk 0 0 0 (List.replicate 48 0) [1, 2] 0,
        VocNode.mk 1 0 3 (List.replicate 48 0) [] 0,
        VocNode.mk 2 0 5 (List.replicate 48 255) [] 1]
      [(0, 1), (1, 2)]) (by decide) (List.replicate 48 0)⟩

/-- Witness for C1 at a concrete input: three descriptors, two of which
have bit 0 of byte 0 set. -/
theorem meanValue_majority_witness :
    (((FBRISK.meanValue [List.replicate 48 1, List.replicate 48 1, List.replicate 48 0]).getD 0 0
        &&& (1 <<< 0) ≠ 0) ↔
      2 * FBRISK.bitSetCount [List.replicate 48 1, List.replicate 48 1, List.replicate 48 0] 0 0 >
        (3 : Nat)) :=
  meanValue_majority [List.replicate 48 1, List.replicate 48 1, List.replicate 48 0] 0 0
    (by decide) (by decide) (by decide) (by decide)

end DBoW2
